import Mathlib

/-!
Verification development for the exp-packages release orchestrator
(`scripts/exp/release.ts`).  The script is embedded shallowly: JS strings
are lists of characters, JS `Map` objects and JSON objects are association
lists with insert-or-replace-in-place update, the `semver` library's
`parse` / `inc` / precedence comparison and the regex used for name
stripping are modelled operationally, and the interactive workflow is a
function from the operator's answers and the external outcomes to an exit
code, an effect trace and the final on-disk descriptor state.
-/

set_option autoImplicit false

/-- JS strings are modelled as lists of characters. -/
abbrev JStr := List Char

/-- Conversion from Lean string literals to the JS string model. -/
def jstr (s : String) : JStr := s.data

/-- JS regex `.` matches any character except the four line terminators
(LF, CR, LINE SEPARATOR, PARAGRAPH SEPARATOR). -/
def jsDot (c : Char) : Bool :=
  !(c = '\n' || c = '\r' || c = Char.ofNat 0x2028 || c = Char.ofNat 0x2029)

/-- Boolean list-prefix test (explicit recursion so that proofs and kernel
evaluation are straightforward). -/
def isPre : JStr → JStr → Bool
  | [], _ => true
  | _ :: _, [] => false
  | a :: as, b :: bs => a = b && isPre as bs

/-- Does `pat` occur in `s` starting at index `i`? -/
def occursAt (pat s : JStr) (i : Nat) : Bool := isPre pat (s.drop i)

/-- Substring test, JS `String.prototype.includes` (bounded search). -/
def containsSub (pat s : JStr) : Bool :=
  (List.range (s.length + 1)).any (fun i => occursAt pat s i)

/-- Descending search: `searchDown f n` tries `f (n-1)`, `f (n-2)`, …, `f 0`
and returns the first `some`.  This mirrors the backtracking order of a
greedy `.*` in a JS regex, which tries the longest extent first. -/
def searchDown (f : Nat → Option Nat) : Nat → Option Nat
  | 0 => none
  | n + 1 =>
    match f n with
    | some v => some v
    | none => searchDown f n

/-- The literal `firebase` of the stripping regex. -/
def fbLit : JStr := jstr "firebase"

/-- The literal `-exp` of the stripping regex. -/
def expLit : JStr := jstr "-exp"

/-- Inner backtracking step of the regex `^(.*firebase.*)-exp(.*)$` from
`removeExpInPackageName`: with `firebase` matched at position `a`, try to
place the literal `-exp` at position `i` (the second greedy `.*` covers
`[a+8, i)`, the final `(.*)$` covers everything after `i+4`; every `.` may
only consume a non-line-terminator character). -/
def innerTry (s : JStr) (a i : Nat) : Option Nat :=
  if a + 8 ≤ i && ((s.drop (a + 8)).take (i - (a + 8))).all jsDot
      && occursAt expLit s i && (s.drop (i + 4)).all jsDot
  then some i else none

/-- Outer backtracking step of the regex `^(.*firebase.*)-exp(.*)$`: try to
match the literal `firebase` at position `a` (the first greedy `.*` covers
`[0, a)`), then search for the `-exp` position greedily from the right. -/
def outerTry (s : JStr) (a : Nat) : Option Nat :=
  if (s.take a).all jsDot && occursAt fbLit s a
  then searchDown (innerTry s a) (s.length + 1) else none

/-- Operational model of `/^(.*firebase.*)-exp(.*)$/.exec(name)`: returns
the start index of the `-exp` occurrence consumed by the match (the
boundary between capture group 1 and the literal), or `none` when the
regex does not match.  Greedy `.*` backtracking is mirrored by trying
`firebase` positions from the right, and for each of them the `-exp`
positions from the right. -/
def expMatch (s : JStr) : Option Nat := searchDown (outerTry s) (s.length + 1)

/-- `removeExpInPackageName` (release.ts lines 429-438): if the regex
`^(.*firebase.*)-exp(.*)$` matches, return `captures[1] ++ captures[2]`
(the name with the matched `-exp` deleted), otherwise return the name
unchanged. -/
def removeExpInPackageName (name : JStr) : JStr :=
  match expMatch name with
  | none => name
  | some i => name.take i ++ name.drop (i + 4)

/-- JS `Map.prototype.set` and JS object key assignment: if the key is
already present its value is replaced in place (keeping its position in
iteration order), otherwise the pair is appended. -/
def setKV {β : Type} : List (JStr × β) → JStr → β → List (JStr × β)
  | [], k, v => [(k, v)]
  | (k', v') :: rest, k, v =>
    if k' = k then (k', v) :: rest else (k', v') :: setKV rest k v

/-- JS `Map.prototype.get` and JS property read: `none` models
`undefined` (key absent). -/
def lookupKV {β : Type} : List (JStr × β) → JStr → Option β
  | [], _ => none
  | (k', v') :: rest, k => if k' = k then some v' else lookupKV rest k

/-- Number of entries of an association list carrying the given key. -/
def countKey {β : Type} : List (JStr × β) → JStr → Nat
  | [], _ => 0
  | (k', _) :: rest, k => (if k' = k then 1 else 0) + countKey rest k

/-- Decimal digit character for a digit value below ten. -/
def digitChar : Nat → Char
  | 0 => '0'
  | 1 => '1'
  | 2 => '2'
  | 3 => '3'
  | 4 => '4'
  | 5 => '5'
  | 6 => '6'
  | 7 => '7'
  | 8 => '8'
  | _ => '9'

/-- Fuel-driven decimal printing of a natural number (structural recursion
so that the kernel can evaluate it). -/
def natToStrAux : Nat → Nat → JStr
  | 0, _ => []
  | fuel + 1, n =>
    if n < 10 then [digitChar n]
    else natToStrAux fuel (n / 10) ++ [digitChar (n % 10)]

/-- Decimal rendering of a natural number, without leading zeros. -/
def natToStr (n : Nat) : JStr := natToStrAux (n + 1) n

/-- Numeric value of a decimal digit character. -/
def charVal (c : Char) : Nat := c.toNat - 48

/-- Decimal reading of a digit string. -/
def strToNat (s : JStr) : Nat := s.foldl (fun acc c => acc * 10 + charVal c) 0

/-- Rejects a leading zero in a multi-digit numeral. -/
def noLeadZero : JStr → Bool
  | c :: _ :: _ => !(c = '0')
  | _ => true

/-- Modelled from the semver npm library: a numeric version component or
prerelease identifier, `0|[1-9]\d*` (nonempty, digits only, no leading
zero). -/
def parseNumId (s : JStr) : Option Nat :=
  if !s.isEmpty && s.all Char.isDigit && noLeadZero s then some (strToNat s) else none

/-- Split at the first occurrence of a character; the second component is
`none` when the character does not occur. -/
def splitFirst (c : Char) : JStr → JStr × Option JStr
  | [] => ([], none)
  | x :: xs =>
    if x = c then ([], some xs)
    else
      let r := splitFirst c xs
      (x :: r.1, r.2)

/-- Split at every occurrence of a separator character (always returns a
nonempty list of segments). -/
def splitSep (sep : Char) : JStr → List JStr
  | [] => [[]]
  | x :: xs =>
    match splitSep sep xs with
    | [] => [[]]
    | y :: ys => if x = sep then [] :: y :: ys else (x :: y) :: ys

/-- Characters allowed in semver prerelease and build identifiers:
ASCII alphanumerics and hyphen. -/
def idChar (c : Char) : Bool := c.isAlphanum || c = '-'

/-- Modelled from the semver npm library: a valid prerelease identifier,
`0|[1-9]\d*|\d*[a-zA-Z-][0-9a-zA-Z-]*`. -/
def preIdOk (s : JStr) : Bool :=
  !s.isEmpty && s.all idChar && (!(s.all Char.isDigit) || noLeadZero s)

/-- Modelled from the semver npm library: a valid build identifier,
`[0-9A-Za-z-]+` (leading zeros allowed). -/
def buildIdOk (s : JStr) : Bool := !s.isEmpty && s.all idChar

/-- A parsed semantic version. -/
structure SemVer where
  major : Nat
  minor : Nat
  patch : Nat
  pre : List JStr
  build : List JStr
deriving DecidableEq

/-- Parse the `MAJOR.MINOR.PATCH` core of a semver string. -/
def parseCore (s : JStr) : Option (Nat × Nat × Nat) :=
  match splitSep '.' s with
  | [a, b, c] =>
    match parseNumId a, parseNumId b, parseNumId c with
    | some x, some y, some z => some (x, y, z)
    | _, _, _ => none
  | _ => none

/-- Parse a dot-separated prerelease part. -/
def parsePre (s : JStr) : Option (List JStr) :=
  let ids := splitSep '.' s
  if ids.all preIdOk then some ids else none

/-- Parse a dot-separated build-metadata part. -/
def parseBuild (s : JStr) : Option (List JStr) :=
  let ids := splitSep '.' s
  if ids.all buildIdOk then some ids else none

/-- An optional leading `v` is accepted by the semver library's full
version regex. -/
def vStrip (s : JStr) : JStr := if s.head? = some 'v' then s.tail else s

/-- Modelled from the semver npm library: strict parsing of a version
string `v? MAJOR.MINOR.PATCH (-prerelease)? (+build)?`. -/
def parseSemver (s0 : JStr) : Option SemVer :=
  let s := vStrip s0
  let bp := splitFirst '+' s
  let cp := splitFirst '-' bp.1
  match parseCore cp.1 with
  | none => none
  | some (a, b, c) =>
    match cp.2 with
    | none =>
      match bp.2 with
      | none => some ⟨a, b, c, [], []⟩
      | some bs =>
        match parseBuild bs with
        | some ids => some ⟨a, b, c, [], ids⟩
        | none => none
    | some ps =>
      match parsePre ps with
      | none => none
      | some pids =>
        match bp.2 with
        | none => some ⟨a, b, c, pids, []⟩
        | some bs =>
          match parseBuild bs with
          | some ids => some ⟨a, b, c, pids, ids⟩
          | none => none

/-- Canonical rendering of a release version core. -/
def renderCore (a b c : Nat) : JStr :=
  natToStr a ++ ('.' :: (natToStr b ++ ('.' :: natToStr c)))

/-- Modelled from the semver npm library: `inc(v, 'patch')`.  Returns
`none` (JS `null`) when the input does not parse.  A version that carries
a prerelease keeps its patch number and merely drops the prerelease;
otherwise the patch component is incremented.  Build metadata is dropped. -/
def inc (v : JStr) : Option JStr :=
  match parseSemver v with
  | none => none
  | some sv =>
    if sv.pre.isEmpty then some (renderCore sv.major sv.minor (sv.patch + 1))
    else some (renderCore sv.major sv.minor sv.patch)

/-- Three-way comparison on naturals. -/
def cmpNat (m n : Nat) : Ordering :=
  if m < n then .lt else if m = n then .eq else .gt

/-- Lexicographic comparison of identifier strings by character code. -/
def cmpChars : JStr → JStr → Ordering
  | [], [] => .eq
  | [], _ :: _ => .lt
  | _ :: _, [] => .gt
  | a :: as, b :: bs =>
    match cmpNat a.toNat b.toNat with
    | .eq => cmpChars as bs
    | o => o

/-- Is this prerelease identifier numeric? -/
def isNumId (s : JStr) : Bool := !s.isEmpty && s.all Char.isDigit

/-- Modelled from the semver npm library: comparison of single prerelease
identifiers (numeric identifiers compare numerically and are lower than
alphanumeric ones, which compare lexicographically). -/
def cmpId (a b : JStr) : Ordering :=
  if isNumId a then
    if isNumId b then cmpNat (strToNat a) (strToNat b) else .lt
  else if isNumId b then .gt
  else cmpChars a b

/-- Identifier-wise comparison of prerelease lists; a list that runs out
first is lower. -/
def cmpPreList : List JStr → List JStr → Ordering
  | [], [] => .eq
  | [], _ :: _ => .lt
  | _ :: _, [] => .gt
  | a :: as, b :: bs =>
    match cmpId a b with
    | .eq => cmpPreList as bs
    | o => o

/-- Modelled from the semver npm library: version precedence.  The core
triple compares lexicographically; at equal cores a version with a
prerelease is lower than one without; build metadata is ignored. -/
def cmpSemver (x y : SemVer) : Ordering :=
  match cmpNat x.major y.major with
  | .eq =>
    match cmpNat x.minor y.minor with
    | .eq =>
      match cmpNat x.patch y.patch with
      | .eq =>
        if x.pre.isEmpty && y.pre.isEmpty then .eq
        else if x.pre.isEmpty then .gt
        else if y.pre.isEmpty then .lt
        else cmpPreList x.pre y.pre
      | o => o
    | o => o
  | o => o

/-- A package.json snapshot, restricted to the fields the release script
reads or writes; all other fields pass through the script untouched.  The
`version` field is doubly optional: `none` is an absent field (JS
`undefined`, dropped by `JSON.stringify`), `some none` is JSON `null`,
`some (some s)` is the string `s`.  `isPrivate` renders the JSON field
named `private` (a Lean keyword). -/
structure PackageJson where
  name : JStr
  version : Option (Option JStr)
  dependencies : Option (List (JStr × JStr))
  peerDependencies : Option (List (JStr × JStr))
  devDependencies : Option (List (JStr × JStr))
  isPrivate : Option Bool
deriving DecidableEq

/-- The option record taken by `updatePackageJsons`. -/
structure RewriteOptions where
  removeExpInName : Bool
  updateVersions : Bool
  makePublic : Bool
deriving DecidableEq

/-- The version plan: a JS `Map<string, string>` whose values can be JS
`null` (which the typing does not prevent: `inc` returns `null` on an
unparseable version), hence `Option JStr`. -/
abbrev VMap := List (JStr × Option JStr)

/-- The umbrella package name constant of release.ts. -/
def FIREBASE_UMBRELLA_PACKAGE_NAME : JStr := jstr "firebase-exp"

/-- JS template-literal coercion used in `${version}-exp.${sha}`:
`undefined` prints as `undefined` and `null` as `null`. -/
def jsTemplate (v : Option (Option JStr)) : JStr :=
  match v with
  | some (some s) => s
  | some none => jstr "null"
  | none => jstr "undefined"

/-- The value one package contributes to the version plan: the umbrella
package gets `inc(version, 'patch')` (JS `null` when the version is
missing or unparseable), every other package gets the template string
`` `${version}-exp.${sha}` ``. -/
def planValue (sha : JStr) (pj : PackageJson) : Option JStr :=
  if pj.name = FIREBASE_UMBRELLA_PACKAGE_NAME then
    match pj.version with
    | some (some s) => inc s
    | _ => none
  else some (jsTemplate pj.version ++ expLit ++ '.' :: sha)

/-- The version-planning loop of `updatePackageNamesAndVersions`
(release.ts lines 273-299): one `Map.set` per package, in input order. -/
def planVersions (pkgs : List PackageJson) (sha : JStr) : VMap :=
  pkgs.foldl (fun m pj => setKV m pj.name (planValue sha pj)) []

/-- The dependency-map rewrite inside `updatePackageJsons` (release.ts
lines 381-394): each key is renamed through `removeExpInPackageName`; the
range is replaced by the planned version when the plan has a truthy entry
for the key (JS `!dNextVersion` is true for `undefined`, `null` and the
empty string), otherwise the declared range is kept. -/
def rewriteDeps (versions : VMap) (deps : List (JStr × JStr)) : List (JStr × JStr) :=
  deps.foldl
    (fun acc kv =>
      let nameWithoutExp := removeExpInPackageName kv.1
      match lookupKV versions kv.1 with
      | some (some s) =>
        if s.isEmpty then setKV acc nameWithoutExp kv.2
        else setKV acc nameWithoutExp s
      | _ => setKV acc nameWithoutExp kv.2)
    []

/-- The per-package body of `updatePackageJsons` (release.ts lines
356-408): optionally set the version from the plan (an absent plan entry
leaves the field `undefined`, which `JSON.stringify` drops), optionally
strip `-exp` from the name and rewrite `dependencies` and
`peerDependencies` (an absent map is treated as `{}` and is written back
as an object), optionally set `private` to `false`.  `devDependencies`
are not touched. -/
def updatePackageJson (versions : VMap) (opts : RewriteOptions) (pj : PackageJson) :
    PackageJson :=
  let pj1 :=
    if opts.updateVersions then { pj with version := lookupKV versions pj.name } else pj
  let pj2 :=
    if opts.removeExpInName then
      { pj1 with
        name := removeExpInPackageName pj1.name
        dependencies := some (rewriteDeps versions (pj1.dependencies.getD []))
        peerDependencies := some (rewriteDeps versions (pj1.peerDependencies.getD [])) }
    else pj1
  if opts.makePublic then { pj2 with isPrivate := some false } else pj2

/-- `updatePackageJsons` over a working set (one full-file rewrite per
package). -/
def updatePackageJsons (versions : VMap) (opts : RewriteOptions)
    (pkgs : List PackageJson) : List PackageJson :=
  pkgs.map (updatePackageJson versions opts)

/-- A package directory: its path and the descriptor currently on disk. -/
structure Package where
  path : JStr
  pj : PackageJson
deriving DecidableEq

/-- Observable external actions of one workflow run, in order. -/
inductive Effect where
  | prepareFirestore
  | build
  | promptVersionCheck
  | publish (path : JStr) (dryRun : Bool) (ok : Bool)
  | promptReset
  | gitCheckout
  | promptCommit
  | gitAdd (pat : JStr)
  | gitCommit (msg : JStr)
  | gitReadBranch
  | gitPush (branch : JStr) (noVerify : Bool)
  | procExit (code : Nat)
deriving DecidableEq

/-- Everything one run of `publishExpPackages` consumes from the outside
world: the dry-run flag, the working set as read from disk, the short
revision hash, the current branch name (as trimmed from `git rev-parse`),
the operator's three confirmation answers and the per-path registry
publish outcomes.  The prepare and build stages are modelled as
succeeding; their failures abort before anything the claims below talk
about. -/
structure WorkflowInput where
  dryRun : Bool
  packages : List Package
  sha : JStr
  branch : JStr
  versionCheckAnswer : Bool
  publishOk : JStr → Bool
  resetAnswer : Bool
  commitAnswer : Bool

/-- Result of a run: the process exit code, the effect trace and the final
descriptor state on disk. -/
structure WorkflowResult where
  exit : Nat
  trace : List Effect
  finalPackages : List Package
deriving DecidableEq

/-- The publish-mode option set of `updatePackageNamesAndVersions`. -/
def pubOpts : RewriteOptions := ⟨true, true, true⟩

/-- The reset-mode option set of `resetWorkingTreeAndBumpVersions`. -/
def resetOpts : RewriteOptions := ⟨false, true, false⟩

/-- `commitAndPush` (release.ts lines 411-427) as it is written: stage all
package descriptors plus the lock file, commit naming the umbrella
version (`${v || ''}` falls back to the empty string for `undefined`,
`null` and `""`), read the current branch, push it with `--no-verify`.
Due to the shadowing bug at the call site this function is unreachable
from the workflow. -/
def commitAndPush (versions : VMap) (currentBranch : JStr) : List Effect :=
  [ .gitAdd (jstr "*/package.json yarn.lock"),
    .gitCommit (jstr "Publish firebase@exp " ++
      (match lookupKV versions FIREBASE_UMBRELLA_PACKAGE_NAME with
       | some (some s) => s
       | _ => [])),
    .gitReadBranch,
    .gitPush currentBranch true ]

/-- `resetWorkingTreeAndBumpVersions` (release.ts lines 329-341) acting on
the restored tree: `git checkout .` has already restored every descriptor
to its original state; then only the packages whose path contains
`firebase-exp` (the `firebaseExpPath` filter) are rewritten in
version-only mode. -/
def resetWorkingTreeAndBumpVersions (originals : List Package) (versions : VMap) :
    List Package :=
  originals.map
    (fun p =>
      if containsSub FIREBASE_UMBRELLA_PACKAGE_NAME p.path then
        { p with pj := updatePackageJson versions resetOpts p.pj }
      else p)

/-- Effects of the prepare, build and version-planning stages up to and
including the version-confirmation prompt. -/
def wfT1 : List Effect := [Effect.prepareFirestore, Effect.build, Effect.promptVersionCheck]

/-- The version plan computed by `updatePackageNamesAndVersions` from the
descriptors as read from disk. -/
def wfVersions (inp : WorkflowInput) : VMap :=
  planVersions (inp.packages.map Package.pj) inp.sha

/-- The working set after the publish-mode rewrite. -/
def wfRewritten (inp : WorkflowInput) : List Package :=
  inp.packages.map (fun p => { p with pj := updatePackageJson (wfVersions inp) pubOpts p.pj })

/-- Effects up to and including the sequential publish attempts (one per
package, in input order, each recording its own outcome). -/
def wfT2 (inp : WorkflowInput) : List Effect :=
  wfT1 ++ (wfRewritten inp).map (fun p => Effect.publish p.path inp.dryRun (inp.publishOk p.path))

/-- The tail of `publishExpPackages` after a fully successful publish
(release.ts lines 112-158): the reset prompt, declining which calls
`process.exit(0)`; on confirmation the checkout-and-bump; then, outside
dry-run mode, the commit-and-push prompt.  Confirming that prompt raises
`TypeError: commitAndPush is not a function`: the destructured prompt
answer `const { commitAndPush } = await prompt(...)` shadows the
module-level function inside this block, so `commitAndPush(versions)`
applies a boolean; the top-level catch logs it and exits 1. -/
def afterPublish (inp : WorkflowInput) (versions : VMap) (rewritten : List Package)
    (t2 : List Effect) : WorkflowResult :=
  let t3 := t2 ++ [Effect.promptReset]
  if inp.resetAnswer = false then
    { exit := 0, trace := t3 ++ [Effect.procExit 0], finalPackages := rewritten }
  else
    let fbVmap : VMap :=
      [(FIREBASE_UMBRELLA_PACKAGE_NAME,
        match lookupKV versions FIREBASE_UMBRELLA_PACKAGE_NAME with
        | some v => v
        | none => none)]
    let restored := resetWorkingTreeAndBumpVersions inp.packages fbVmap
    let t4 := t3 ++ [Effect.gitCheckout]
    if inp.dryRun then { exit := 0, trace := t4, finalPackages := restored }
    else
      let t5 := t4 ++ [Effect.promptCommit]
      if inp.commitAnswer then { exit := 1, trace := t5, finalPackages := restored }
      else { exit := 0, trace := t5, finalPackages := restored }

/-- `publishExpPackages` (release.ts lines 48-170).  After prepare and
build, the plan is computed and the publish-mode rewrite applied; the
version prompt, declined, throws (caught: exit 1); the packages are then
published strictly sequentially by a listr task list with
`concurrent: false, exitOnError: false`, which attempts every task and
records each outcome, but whose `run()` promise rejects with an aggregate
`ListrError` at the end when any task failed — that rejection is caught
by the top-level handler, so any publish failure exits 1 before the reset
prompt.  On full success the run continues with `afterPublish`. -/
def runWorkflow (inp : WorkflowInput) : WorkflowResult :=
  if inp.versionCheckAnswer = false then
    { exit := 1, trace := wfT1, finalPackages := wfRewritten inp }
  else if (wfRewritten inp).any (fun p => !(inp.publishOk p.path)) then
    { exit := 1, trace := wfT2 inp, finalPackages := wfRewritten inp }
  else afterPublish inp (wfVersions inp) (wfRewritten inp) (wfT2 inp)

/-- Index `i` qualifies for the stripping regex: the literal `-exp` occurs
at `i` and a full occurrence of `firebase` ends at or before `i`. -/
def qualifiesAt (s : JStr) (i : Nat) : Prop :=
  occursAt expLit s i = true ∧ ∃ j, j + 8 ≤ i ∧ occursAt fbLit s j = true

/-- Publish events of a trace: path and outcome, in order. -/
def publishEvents (t : List Effect) : List (JStr × Bool) :=
  t.filterMap (fun e =>
    match e with
    | .publish p _ ok => some (p, ok)
    | _ => none)

/-- Is this effect one of the git mutations performed by
`commitAndPush` (stage, commit or push)? -/
def isGitWrite (e : Effect) : Bool :=
  match e with
  | .gitAdd _ => true
  | .gitCommit _ => true
  | .gitPush _ _ => true
  | _ => false

/-- The spec's scenario umbrella package: `firebase-exp` at `1.2.3`,
private, with no dependency fields. -/
def scUm : PackageJson :=
  ⟨jstr "firebase-exp", some (some (jstr "1.2.3")), none, none, none, some true⟩

/-- The spec's scenario package `@x/a-exp` at `0.5.0` depending on
`@x/b-exp` with range `^0.5.0`. -/
def scA : PackageJson :=
  ⟨jstr "@x/a-exp", some (some (jstr "0.5.0")),
    some [(jstr "@x/b-exp", jstr "^0.5.0")], none, none, some true⟩

/-- The spec's scenario package `@x/b-exp` at `0.5.0` (so the planner maps
it to `0.5.0-exp.abcdef`). -/
def scB : PackageJson :=
  ⟨jstr "@x/b-exp", some (some (jstr "0.5.0")), none, none, none, some true⟩

/-- The scenario's version plan, computed with build id `abcdef`. -/
def scPlan : VMap := planVersions [scUm, scA, scB] (jstr "abcdef")

/-- A concrete non-dry-run release run over the umbrella package in which
the operator confirms the version prompt, every registry publish
succeeds, and the operator then confirms both the reset prompt and the
commit-and-push prompt. -/
def c1Input : WorkflowInput :=
  { dryRun := false
    packages := [⟨jstr "packages-exp/firebase-exp", scUm⟩]
    sha := jstr "abcdef"
    branch := jstr "release"
    versionCheckAnswer := true
    publishOk := fun _ => true
    resetAnswer := true
    commitAnswer := true }

/-- The spec's publish-failure scenario: packages `@x/a` and `@x/b`, the
registry failing the publish of `pkgs/a` and accepting `pkgs/b`, with the
operator confirming every prompt he is shown. -/
def c4Input : WorkflowInput :=
  { dryRun := false
    packages :=
      [⟨jstr "pkgs/a", ⟨jstr "@x/a", some (some (jstr "0.1.0")), none, none, none, some true⟩⟩,
       ⟨jstr "pkgs/b", ⟨jstr "@x/b", some (some (jstr "0.1.0")), none, none, none, some true⟩⟩]
    sha := jstr "abcdef"
    branch := jstr "release"
    versionCheckAnswer := true
    publishOk := fun p => decide (p = jstr "pkgs/b")
    resetAnswer := true
    commitAnswer := true }

/-- A concrete run that ends with the operator declining the
reset-working-tree prompt (the clean abort path). -/
def c6Input : WorkflowInput :=
  { dryRun := false
    packages := [⟨jstr "packages-exp/firebase-exp", scUm⟩]
    sha := jstr "abcdef"
    branch := jstr "release"
    versionCheckAnswer := true
    publishOk := fun _ => true
    resetAnswer := false
    commitAnswer := true }

/-! Helper lemmas: descending search. -/

theorem searchDown_eq_some {f : Nat → Option Nat} :
    ∀ {n v : Nat}, searchDown f n = some v →
      ∃ k, k < n ∧ f k = some v ∧ ∀ j, k < j → j < n → f j = none := by
  intro n
  induction n with
  | zero => intro v h; simp [searchDown] at h
  | succ n ih =>
    intro v h
    unfold searchDown at h
    cases hf : f n with
    | some w =>
      rw [hf] at h
      cases h
      exact ⟨n, Nat.lt_succ_self n, hf, fun j hj hjn => absurd hj (by omega)⟩
    | none =>
      rw [hf] at h
      obtain ⟨k, hk, hfk, hmax⟩ := ih h
      refine ⟨k, Nat.lt_succ_of_lt hk, hfk, fun j hj hjn => ?_⟩
      rcases Nat.lt_succ_iff_lt_or_eq.mp hjn with h' | h'
      · exact hmax j hj h'
      · subst h'; exact hf

theorem searchDown_eq_none_of {f : Nat → Option Nat} :
    ∀ {n : Nat}, (∀ k, k < n → f k = none) → searchDown f n = none := by
  intro n
  induction n with
  | zero => intro _; rfl
  | succ n ih =>
    intro h
    unfold searchDown
    rw [h n (Nat.lt_succ_self n)]
    exact ih fun k hk => h k (Nat.lt_succ_of_lt hk)

/-! Helper lemmas: prefix and occurrence. -/

theorem isPre_decomp {p : JStr} :
    ∀ {s : JStr}, isPre p s = true → s = p ++ s.drop p.length := by
  induction p with
  | nil => intro s _; simp
  | cons a as ih =>
    intro s h
    cases s with
    | nil => simp [isPre] at h
    | cons b bs =>
      simp only [isPre, Bool.and_eq_true, decide_eq_true_eq] at h
      obtain ⟨h1, h2⟩ := h
      simpa [h1] using ih h2

theorem occursAt_decomp {pat s : JStr} {i : Nat} (h : occursAt pat s i = true) :
    s.drop i = pat ++ s.drop (i + pat.length) := by
  have := isPre_decomp h
  rwa [List.drop_drop] at this

theorem occursAt_add_length_le {pat s : JStr} {i : Nat} (hp : pat ≠ [])
    (h : occursAt pat s i = true) : i + pat.length ≤ s.length := by
  have hd := occursAt_decomp h
  have hlen : (s.drop i).length = pat.length + (s.drop (i + pat.length)).length := by
    rw [hd]; simp
  have h1 : pat.length ≤ s.length - i := by
    rw [List.length_drop] at hlen; omega
  have h2 : 0 < pat.length := by cases pat with
    | nil => exact absurd rfl hp
    | cons a as => simp
  omega

theorem occursAt_false_of_length_lt {pat s : JStr} {i : Nat} (hp : pat ≠ [])
    (h : s.length < i + pat.length) : occursAt pat s i = false := by
  cases hc : occursAt pat s i with
  | false => rfl
  | true =>
    have := occursAt_add_length_le hp hc
    omega

theorem occursAt_all_false_of_not_contains {pat s : JStr} (hp : pat ≠ [])
    (h : containsSub pat s = false) : ∀ i, occursAt pat s i = false := by
  intro i
  by_cases hi : i < s.length + 1
  · by_contra hc
    have hc' : occursAt pat s i = true := by revert hc; cases occursAt pat s i <;> simp
    have : containsSub pat s = true := by
      unfold containsSub
      rw [List.any_eq_true]
      exact ⟨i, List.mem_range.mpr hi, hc'⟩
    rw [this] at h; cases h
  · exact occursAt_false_of_length_lt hp (by
      have h2 : 0 < pat.length := by cases pat with
        | nil => exact absurd rfl hp
        | cons a as => simp
      omega)

theorem containsSub_of_occursAt {pat s : JStr} {i : Nat} (hp : pat ≠ [])
    (h : occursAt pat s i = true) : containsSub pat s = true := by
  unfold containsSub
  rw [List.any_eq_true]
  have := occursAt_add_length_le hp h
  have h2 : 0 < pat.length := by cases pat with
    | nil => exact absurd rfl hp
    | cons a as => simp
  exact ⟨i, List.mem_range.mpr (by omega), h⟩

/-! Helper lemmas: characterizing the stripping-regex match. -/

theorem all_take_of_all {p : Char → Bool} {s : JStr} (h : s.all p = true) (n : Nat) :
    (s.take n).all p = true := by
  rw [List.all_eq_true] at h ⊢
  exact fun c hc => h c (List.take_subset n s hc)

theorem all_drop_of_all {p : Char → Bool} {s : JStr} (h : s.all p = true) (n : Nat) :
    (s.drop n).all p = true := by
  rw [List.all_eq_true] at h ⊢
  exact fun c hc => h c (List.drop_subset n s hc)

theorem innerTry_eq_some {s : JStr} {a i v : Nat} (h : innerTry s a i = some v) :
    v = i ∧ a + 8 ≤ i ∧ ((s.drop (a + 8)).take (i - (a + 8))).all jsDot = true ∧
      occursAt expLit s i = true ∧ (s.drop (i + 4)).all jsDot = true := by
  unfold innerTry at h
  split at h
  next hc =>
    simp only [Bool.and_eq_true, decide_eq_true_eq] at hc
    cases h
    exact ⟨rfl, hc.1.1.1, hc.1.1.2, hc.1.2, hc.2⟩
  next => cases h

theorem innerTry_self {s : JStr} {a i : Nat} (h8 : a + 8 ≤ i)
    (hmid : ((s.drop (a + 8)).take (i - (a + 8))).all jsDot = true)
    (hexp : occursAt expLit s i = true)
    (htail : (s.drop (i + 4)).all jsDot = true) : innerTry s a i = some i := by
  unfold innerTry
  rw [if_pos]
  simp only [Bool.and_eq_true, decide_eq_true_eq]
  exact ⟨⟨⟨h8, hmid⟩, hexp⟩, htail⟩

theorem outerTry_eq_some {s : JStr} {a v : Nat} (h : outerTry s a = some v) :
    (s.take a).all jsDot = true ∧ occursAt fbLit s a = true ∧
      searchDown (innerTry s a) (s.length + 1) = some v := by
  unfold outerTry at h
  split at h
  next hc =>
    simp only [Bool.and_eq_true] at hc
    exact ⟨hc.1, hc.2, h⟩
  next => cases h

theorem expMatch_eq_some {s : JStr} {i : Nat} (h : expMatch s = some i) :
    ∃ a, (s.take a).all jsDot = true ∧ occursAt fbLit s a = true ∧ a + 8 ≤ i ∧
      ((s.drop (a + 8)).take (i - (a + 8))).all jsDot = true ∧
      occursAt expLit s i = true ∧ (s.drop (i + 4)).all jsDot = true ∧
      ∀ j, i < j → j < s.length + 1 → innerTry s a j = none := by
  obtain ⟨a, _, hfa, _⟩ := searchDown_eq_some h
  obtain ⟨hdot, hfb, hsd⟩ := outerTry_eq_some hfa
  obtain ⟨k, hk, hik, hmax⟩ := searchDown_eq_some hsd
  obtain ⟨hv, h8, hmid, hexp, htail⟩ := innerTry_eq_some hik
  subst hv
  exact ⟨a, hdot, hfb, h8, hmid, hexp, htail, hmax⟩

theorem all_jsDot_of_expMatch {s : JStr} {i : Nat} (h : expMatch s = some i) :
    s.all jsDot = true := by
  obtain ⟨a, hdot, hfb, h8, hmid, hexp, htail, _⟩ := expMatch_eq_some h
  have hfbDot : ∀ c ∈ fbLit, jsDot c = true := by decide
  have hexpDot : ∀ c ∈ expLit, jsDot c = true := by decide
  have hdrop_a : s.drop a = fbLit ++ s.drop (a + 8) := occursAt_decomp hfb
  have hdrop_a8 :
      s.drop (a + 8) =
        (s.drop (a + 8)).take (i - (a + 8)) ++ s.drop i := by
    have h1 := (List.take_append_drop (i - (a + 8)) (s.drop (a + 8))).symm
    rw [List.drop_drop] at h1
    have h2 : a + 8 + (i - (a + 8)) = i := by omega
    rwa [h2] at h1
  have hdrop_i : s.drop i = expLit ++ s.drop (i + 4) := occursAt_decomp hexp
  rw [List.all_eq_true]
  intro c hc
  rw [← List.take_append_drop a s, List.mem_append] at hc
  rcases hc with hc | hc
  · exact List.all_eq_true.mp hdot c hc
  · rw [hdrop_a, List.mem_append] at hc
    rcases hc with hc | hc
    · exact hfbDot c hc
    · rw [hdrop_a8, List.mem_append] at hc
      rcases hc with hc | hc
      · exact List.all_eq_true.mp hmid c hc
      · rw [hdrop_i, List.mem_append] at hc
        rcases hc with hc | hc
        · exact hexpDot c hc
        · exact List.all_eq_true.mp htail c hc

theorem expMatch_max {s : JStr} {i : Nat} (h : expMatch s = some i) :
    ∀ i', occursAt expLit s i' = true → i' ≤ i := by
  intro i' hexp'
  by_contra hlt
  push_neg at hlt
  obtain ⟨a, hdot, hfb, h8, hmid, hexpi, htail, hmax⟩ := expMatch_eq_some h
  have hall := all_jsDot_of_expMatch h
  have hi'len : i' + 4 ≤ s.length := by
    have := @occursAt_add_length_le expLit s i' (by decide) hexp'
    simpa using this
  have hsome : innerTry s a i' = some i' :=
    innerTry_self (by omega) (all_take_of_all (all_drop_of_all hall _) _) hexp'
      (all_drop_of_all hall _)
  have hnone := hmax i' hlt (by omega)
  rw [hsome] at hnone
  cases hnone

theorem qualifiesAt_of_expMatch {s : JStr} {i : Nat} (h : expMatch s = some i) :
    qualifiesAt s i := by
  obtain ⟨a, _, hfb, h8, _, hexp, _, _⟩ := expMatch_eq_some h
  exact ⟨hexp, a, h8, hfb⟩

theorem expMatch_eq_none_of {s : JStr} (h : ∀ i, ¬ qualifiesAt s i) :
    expMatch s = none := by
  apply searchDown_eq_none_of
  intro a _
  unfold outerTry
  split
  next hc =>
    apply searchDown_eq_none_of
    intro k _
    unfold innerTry
    split
    next hc2 =>
      simp only [Bool.and_eq_true, decide_eq_true_eq] at hc hc2
      exact absurd ⟨hc2.1.2, a, hc2.1.1.1, hc.2⟩ (h k)
    next => rfl
  next => rfl

theorem removeExp_of_expMatch_none {s : JStr} (h : expMatch s = none) :
    removeExpInPackageName s = s := by
  unfold removeExpInPackageName
  rw [h]

theorem removeExp_of_expMatch_some {s : JStr} {i : Nat} (h : expMatch s = some i) :
    removeExpInPackageName s = s.take i ++ s.drop (i + 4) := by
  unfold removeExpInPackageName
  rw [h]

theorem removeExp_length {s : JStr} {i : Nat} (h : expMatch s = some i) :
    (removeExpInPackageName s).length + 4 = s.length := by
  rw [removeExp_of_expMatch_some h]
  have hexp := (qualifiesAt_of_expMatch h).1
  have hlen : i + 4 ≤ s.length := by
    have := @occursAt_add_length_le expLit s i (by decide) hexp
    simpa using this
  simp only [List.length_append, List.length_take, List.length_drop]
  omega

/-- C8: the name-stripping function is the identity on every package name
that does not contain the channel suffix marker `-exp` anywhere. -/
theorem c8_strip_identity (name : JStr) (h : containsSub expLit name = false) :
    removeExpInPackageName name = name := by
  have hq : ∀ i, ¬ qualifiesAt name i := by
    intro i hi
    have hf := @occursAt_all_false_of_not_contains expLit name (by decide) h i
    rw [hi.1] at hf
    cases hf
  exact removeExp_of_expMatch_none (expMatch_eq_none_of hq)

/-- Witness for C8 at the concrete name `@firebase/app`. -/
theorem c8_strip_identity_witness :
    containsSub expLit (jstr "@firebase/app") = false ∧
      removeExpInPackageName (jstr "@firebase/app") = jstr "@firebase/app" :=
  ⟨by decide, c8_strip_identity (jstr "@firebase/app") (by decide)⟩

/-- C9: `removeExpInPackageName` either returns its input unchanged or
deletes exactly one occurrence of `-exp` (the output is exactly four
characters shorter); it rewrites only when some full occurrence of
`firebase` ends at or before an occurrence of `-exp`, and the occurrence
it deletes is the last qualifying one; names containing `-exp` but not
`firebase` come back unchanged. -/
theorem c9_strip_characterization (name : JStr) :
    (removeExpInPackageName name = name ∨
      ∃ i, qualifiesAt name i ∧
        removeExpInPackageName name = name.take i ++ name.drop (i + 4) ∧
        (removeExpInPackageName name).length + 4 = name.length ∧
        ∀ i', qualifiesAt name i' → i' ≤ i) ∧
    (removeExpInPackageName name ≠ name → ∃ i, qualifiesAt name i) ∧
    (containsSub expLit name = true → containsSub fbLit name = false →
      removeExpInPackageName name = name) := by
  refine ⟨?_, ?_, ?_⟩
  · cases h : expMatch name with
    | none => exact Or.inl (removeExp_of_expMatch_none h)
    | some i =>
      exact Or.inr ⟨i, qualifiesAt_of_expMatch h, removeExp_of_expMatch_some h,
        removeExp_length h, fun i' hi' => expMatch_max h i' hi'.1⟩
  · intro hne
    cases h : expMatch name with
    | none => exact absurd (removeExp_of_expMatch_none h) hne
    | some i => exact ⟨i, qualifiesAt_of_expMatch h⟩
  · intro _ hfb
    have hq : ∀ i, ¬ qualifiesAt name i := by
      intro i hi
      obtain ⟨_, j, _, hocc⟩ := hi
      have hf := @occursAt_all_false_of_not_contains fbLit name (by decide) hfb j
      rw [hocc] at hf
      cases hf
    exact removeExp_of_expMatch_none (expMatch_eq_none_of hq)

/-- Witness for C9 at the concrete name `@x/b-exp`: it contains `-exp` but
not `firebase`, so stripping leaves it unchanged. -/
theorem c9_strip_characterization_witness :
    containsSub expLit (jstr "@x/b-exp") = true ∧
      containsSub fbLit (jstr "@x/b-exp") = false ∧
      removeExpInPackageName (jstr "@x/b-exp") = jstr "@x/b-exp" :=
  ⟨by decide, by decide,
    (c9_strip_characterization (jstr "@x/b-exp")).2.2 (by decide) (by decide)⟩

/-- C7: for every descriptor and every combination of rewrite options,
the rewrite leaves the `devDependencies` map completely unchanged. -/
theorem c7_devDependencies_frame (versions : VMap) (opts : RewriteOptions)
    (pj : PackageJson) :
    (updatePackageJson versions opts pj).devDependencies = pj.devDependencies := by
  unfold updatePackageJson
  cases opts with
  | mk r u m => cases r <;> cases u <;> cases m <;> simp

/-- C10: invoking the rewrite with `updateVersions` on a package whose
name has no entry in the version map raises no error and sets the version
field to the absent value (`undefined`, dropped on serialization). -/
theorem c10_missing_version_entry (versions : VMap) (opts : RewriteOptions)
    (pj : PackageJson) (hopt : opts.updateVersions = true)
    (h : lookupKV versions pj.name = none) :
    (updatePackageJson versions opts pj).version = none := by
  unfold updatePackageJson
  cases opts with
  | mk r u m =>
    cases u with
    | false => cases hopt
    | true => cases r <;> cases m <;> simp [h]

/-- Witness for C10: a package absent from an empty version plan comes out
with no version field. -/
theorem c10_missing_version_entry_witness :
    pubOpts.updateVersions = true ∧
      lookupKV ([] : VMap) scB.name = none ∧
      (updatePackageJson [] pubOpts scB).version = none :=
  ⟨rfl, rfl, c10_missing_version_entry [] pubOpts scB rfl rfl⟩

/-- C2 fails on the code: in the publish-mode rewrite over the spec's
scenario, `@x/a-exp` is NOT renamed to `@x/a` (the stripping regex
requires `firebase` inside the name before `-exp`), and the rewritten
dependency map has no key `@x/b`. -/
theorem c2_counterexample :
    (updatePackageJson scPlan pubOpts scA).name = jstr "@x/a-exp" ∧
      (updatePackageJson scPlan pubOpts scA).name ≠ jstr "@x/a" ∧
      lookupKV ((updatePackageJson scPlan pubOpts scA).dependencies.getD [])
        (jstr "@x/b") = none := by
  decide

/-- C2 amended: the umbrella `firebase-exp` becomes `firebase` at `1.2.4`
and public, while `@x/a-exp` keeps its name, gets version
`0.5.0-exp.abcdef`, and its dependency entry keeps the key `@x/b-exp`
with the planned value `0.5.0-exp.abcdef`. -/
theorem c2_rewrite_scenario :
    updatePackageJson scPlan pubOpts scUm =
      ⟨jstr "firebase", some (some (jstr "1.2.4")), some [], some [], none, some false⟩ ∧
      updatePackageJson scPlan pubOpts scA =
        ⟨jstr "@x/a-exp", some (some (jstr "0.5.0-exp.abcdef")),
          some [(jstr "@x/b-exp", jstr "0.5.0-exp.abcdef")], some [], none, some false⟩ := by
  decide

/-- C1 (code bug): in the concrete non-dry-run run where the operator
confirms the reset prompt and then answers yes at the commit-and-push
prompt, the process exits 1 and no stage, commit or push effect is ever
performed (the prompt answer shadows the `commitAndPush` function and the
call raises a TypeError), whereas the module-level `commitAndPush`
function, had it been called, would have staged the descriptors and the
lock file, committed naming the umbrella version 1.2.4, read the current
branch and pushed it with hooks disabled. -/
theorem c1_commit_push_shadowing :
    (runWorkflow c1Input).exit = 1 ∧
      (runWorkflow c1Input).trace.all (fun e => !isGitWrite e) = true ∧
      commitAndPush (planVersions [scUm] (jstr "abcdef")) (jstr "release") =
        [Effect.gitAdd (jstr "*/package.json yarn.lock"),
         Effect.gitCommit (jstr "Publish firebase@exp 1.2.4"),
         Effect.gitReadBranch,
         Effect.gitPush (jstr "release") true] := by
  decide

/-! Helper lemmas: the workflow. -/

theorem wfRewritten_any (inp : WorkflowInput) :
    (wfRewritten inp).any (fun p => !(inp.publishOk p.path))
      = inp.packages.any (fun p => !(inp.publishOk p.path)) := by
  unfold wfRewritten
  rw [List.any_map]
  rfl

theorem publishEvents_append (t1 t2 : List Effect) :
    publishEvents (t1 ++ t2) = publishEvents t1 ++ publishEvents t2 := by
  unfold publishEvents
  rw [List.filterMap_append]

theorem publishEvents_map_publish (l : List Package) (d : Bool) (f : JStr → Bool) :
    publishEvents (l.map (fun p => Effect.publish p.path d (f p.path))) =
      l.map (fun p => (p.path, f p.path)) := by
  induction l with
  | nil => rfl
  | cons p ps ih =>
    simp only [List.map_cons, publishEvents, List.filterMap_cons] at ih ⊢
    rw [ih]

theorem publishEvents_wfT2 (inp : WorkflowInput) :
    publishEvents (wfT2 inp) = inp.packages.map (fun p => (p.path, inp.publishOk p.path)) := by
  unfold wfT2
  rw [publishEvents_append]
  have h1 : publishEvents wfT1 = [] := rfl
  rw [h1, List.nil_append, publishEvents_map_publish]
  unfold wfRewritten
  rw [List.map_map]
  rfl

theorem promptReset_not_mem_wfT2 (inp : WorkflowInput) :
    Effect.promptReset ∉ wfT2 inp := by
  unfold wfT2 wfT1
  intro h
  rw [List.mem_append] at h
  rcases h with h | h
  · simp at h
  · rw [List.mem_map] at h
    obtain ⟨p, _, hp⟩ := h
    cases hp

theorem afterPublish_trace (inp : WorkflowInput) (v : VMap) (rwr : List Package)
    (t2 : List Effect) :
    ∃ rest, (afterPublish inp v rwr t2).trace = t2 ++ rest ∧
      publishEvents rest = [] ∧ Effect.promptReset ∈ rest := by
  unfold afterPublish
  by_cases hr : inp.resetAnswer = false
  · exact ⟨[Effect.promptReset, Effect.procExit 0], by simp [hr], rfl, by simp⟩
  · by_cases hd : inp.dryRun
    · exact ⟨[Effect.promptReset, Effect.gitCheckout], by simp [hr, hd], rfl, by simp⟩
    · by_cases hcm : inp.commitAnswer
      · exact ⟨[Effect.promptReset, Effect.gitCheckout, Effect.promptCommit],
          by simp [hr, hd, hcm], rfl, by simp⟩
      · exact ⟨[Effect.promptReset, Effect.gitCheckout, Effect.promptCommit],
          by simp [hr, hd, hcm], rfl, by simp⟩

theorem runWorkflow_eq_afterPublish (inp : WorkflowInput)
    (hvc : inp.versionCheckAnswer = true)
    (hall : ∀ p ∈ inp.packages, inp.publishOk p.path = true) :
    runWorkflow inp = afterPublish inp (wfVersions inp) (wfRewritten inp) (wfT2 inp) := by
  unfold runWorkflow
  have hany : (wfRewritten inp).any (fun p => !(inp.publishOk p.path)) = false := by
    rw [wfRewritten_any, List.any_eq_false]
    intro p hp
    simp [hall p hp]
  simp [hvc, hany]

theorem runWorkflow_eq_of_publishFailure (inp : WorkflowInput)
    (hvc : inp.versionCheckAnswer = true)
    (hfail : ∃ p ∈ inp.packages, inp.publishOk p.path = false) :
    runWorkflow inp = { exit := 1, trace := wfT2 inp, finalPackages := wfRewritten inp } := by
  unfold runWorkflow
  have hany : (wfRewritten inp).any (fun p => !(inp.publishOk p.path)) = true := by
    rw [wfRewritten_any, List.any_eq_true]
    obtain ⟨p, hp, hpf⟩ := hfail
    exact ⟨p, hp, by simp [hpf]⟩
  simp [hvc, hany]

/-- C4 fails on the code: with `@x/a` failing and `@x/b` succeeding, both
publishes are attempted sequentially in input order and each outcome is
recorded, but the listr aggregate rejection is caught as a fatal error:
the run exits 1 and the reset-confirmation prompt is never reached. -/
theorem c4_counterexample :
    publishEvents (runWorkflow c4Input).trace =
        [(jstr "pkgs/a", false), (jstr "pkgs/b", true)] ∧
      Effect.promptReset ∉ (runWorkflow c4Input).trace ∧
      (runWorkflow c4Input).exit = 1 := by
  decide

/-- C4 amended: publishes are attempted strictly sequentially in input
order, an earlier failure never prevents a later attempt, and the
aggregate trace records every package's individual outcome; but when any
publish fails the workflow exits 1 without reaching the
reset-confirmation prompt, and only when all succeed does it reach that
prompt. -/
theorem c4_publish_isolation (inp : WorkflowInput)
    (hvc : inp.versionCheckAnswer = true) :
    publishEvents (runWorkflow inp).trace
        = inp.packages.map (fun p => (p.path, inp.publishOk p.path)) ∧
      ((∃ p ∈ inp.packages, inp.publishOk p.path = false) →
        (runWorkflow inp).exit = 1 ∧ Effect.promptReset ∉ (runWorkflow inp).trace) ∧
      ((∀ p ∈ inp.packages, inp.publishOk p.path = true) →
        Effect.promptReset ∈ (runWorkflow inp).trace) := by
  by_cases hall : ∀ p ∈ inp.packages, inp.publishOk p.path = true
  · have heq := runWorkflow_eq_afterPublish inp hvc hall
    obtain ⟨rest, htr, hpe, hmem⟩ :=
      afterPublish_trace inp (wfVersions inp) (wfRewritten inp) (wfT2 inp)
    refine ⟨?_, ?_, ?_⟩
    · rw [heq, htr, publishEvents_append, hpe, List.append_nil, publishEvents_wfT2]
    · intro ⟨p, hp, hpf⟩
      have := hall p hp
      rw [hpf] at this
      cases this
    · intro _
      rw [heq, htr, List.mem_append]
      exact Or.inr hmem
  · push_neg at hall
    obtain ⟨p, hp, hpf⟩ := hall
    have hpf' : inp.publishOk p.path = false := by
      revert hpf
      cases inp.publishOk p.path <;> simp
    have heq := runWorkflow_eq_of_publishFailure inp hvc ⟨p, hp, hpf'⟩
    refine ⟨?_, ?_, ?_⟩
    · rw [heq]
      exact publishEvents_wfT2 inp
    · intro _
      rw [heq]
      exact ⟨rfl, promptReset_not_mem_wfT2 inp⟩
    · intro hallt
      have := hallt p hp
      rw [hpf'] at this
      cases this

/-- Witness for C4 at a run where every publish succeeds: the
reset-confirmation prompt is reached. -/
theorem c4_publish_isolation_witness :
    c1Input.versionCheckAnswer = true ∧
      Effect.promptReset ∈ (runWorkflow c1Input).trace :=
  ⟨rfl, (c4_publish_isolation c1Input rfl).2.2 (by decide)⟩

/-- C6: the modelled error sources all exit 1 (declining the
publish-version confirmation, any publish failure, and the TypeError on
the confirmed commit-and-push path), while normal completion exits 0,
including the clean abort at the reset gate and the paths that skip or
decline the commit-and-push prompt. -/
theorem c6_exit_codes (inp : WorkflowInput) :
    (inp.versionCheckAnswer = false → (runWorkflow inp).exit = 1) ∧
      (inp.versionCheckAnswer = true →
        (∀ p ∈ inp.packages, inp.publishOk p.path = true) →
        inp.resetAnswer = false → (runWorkflow inp).exit = 0) ∧
      (inp.versionCheckAnswer = true →
        (∀ p ∈ inp.packages, inp.publishOk p.path = true) →
        inp.resetAnswer = true → (inp.dryRun = true ∨ inp.commitAnswer = false) →
        (runWorkflow inp).exit = 0) ∧
      (inp.versionCheckAnswer = true →
        (∃ p ∈ inp.packages, inp.publishOk p.path = false) →
        (runWorkflow inp).exit = 1) ∧
      (inp.versionCheckAnswer = true →
        (∀ p ∈ inp.packages, inp.publishOk p.path = true) →
        inp.resetAnswer = true → inp.dryRun = false → inp.commitAnswer = true →
        (runWorkflow inp).exit = 1) := by
  refine ⟨?_, ?_, ?_, ?_, ?_⟩
  · intro h
    simp [runWorkflow, h]
  · intro hvc hall hr
    rw [runWorkflow_eq_afterPublish inp hvc hall]
    simp [afterPublish, hr]
  · intro hvc hall hr hdc
    rw [runWorkflow_eq_afterPublish inp hvc hall]
    rcases hdc with hd | hc
    · simp [afterPublish, hr, hd]
    · by_cases hd : inp.dryRun <;> simp [afterPublish, hr, hd, hc]
  · intro hvc hfail
    rw [runWorkflow_eq_of_publishFailure inp hvc hfail]
  · intro hvc hall hr hd hc
    rw [runWorkflow_eq_afterPublish inp hvc hall]
    simp [afterPublish, hr, hd, hc]

/-- Witness for C6: declining the reset prompt after a fully successful
publish exits 0. -/
theorem c6_exit_codes_witness :
    c6Input.versionCheckAnswer = true ∧ c6Input.resetAnswer = false ∧
      (runWorkflow c6Input).exit = 0 :=
  ⟨rfl, rfl, (c6_exit_codes c6Input).2.1 rfl (by decide) rfl⟩

/-! Helper lemmas: association maps and the version-plan fold. -/

theorem lookupKV_setKV_self {β : Type} (m : List (JStr × β)) (k : JStr) (v : β) :
    lookupKV (setKV m k v) k = some v := by
  induction m with
  | nil => simp [setKV, lookupKV]
  | cons kv rest ih =>
    obtain ⟨k', v'⟩ := kv
    by_cases h : k' = k
    · simp [setKV, h, lookupKV]
    · simp [setKV, h, lookupKV, ih]

theorem lookupKV_setKV_ne {β : Type} (m : List (JStr × β)) (k q : JStr) (v : β)
    (h : q ≠ k) : lookupKV (setKV m k v) q = lookupKV m q := by
  induction m with
  | nil => simp [setKV, lookupKV, Ne.symm h]
  | cons kv rest ih =>
    obtain ⟨k', v'⟩ := kv
    by_cases h' : k' = k
    · subst h'
      simp [setKV, lookupKV, Ne.symm h]
    · by_cases hq : k' = q
      · subst hq
        simp [setKV, lookupKV, h']
      · simp [setKV, lookupKV, h', hq, ih]

theorem map_fst_setKV {β : Type} (m : List (JStr × β)) (k : JStr) (v : β) :
    (setKV m k v).map Prod.fst =
      if k ∈ m.map Prod.fst then m.map Prod.fst else m.map Prod.fst ++ [k] := by
  induction m with
  | nil => simp only [setKV, List.map_cons, List.map_nil, List.not_mem_nil,
      if_false, List.nil_append]
  | cons kv rest ih =>
    obtain ⟨k', v'⟩ := kv
    by_cases h : k' = k
    · subst h
      have e1 : setKV ((k', v') :: rest) k' v = (k', v) :: rest := by
        simp [setKV]
      have hmem : k' ∈ List.map Prod.fst ((k', v') :: rest) := by
        rw [List.map_cons]
        exact List.mem_cons_self _ _
      rw [e1, if_pos hmem]
      simp only [List.map_cons]
    · have e1 : setKV ((k', v') :: rest) k v = (k', v') :: setKV rest k v := by
        simp only [setKV, if_neg h]
      rw [e1, List.map_cons, ih, List.map_cons]
      by_cases hm : k ∈ rest.map Prod.fst
      · rw [if_pos hm, if_pos (List.mem_cons_of_mem k' hm)]
      · rw [if_neg hm, if_neg ?hne, List.cons_append]
        case hne =>
          intro hcon
          rcases List.mem_cons.mp hcon with hc | hc
          · exact h hc.symm
          · exact hm hc

theorem nodup_keys_setKV {β : Type} {m : List (JStr × β)}
    (h : (m.map Prod.fst).Nodup) (k : JStr) (v : β) :
    ((setKV m k v).map Prod.fst).Nodup := by
  rw [map_fst_setKV]
  by_cases hm : k ∈ m.map Prod.fst
  · simp [hm, h]
  · simp [hm, List.nodup_append, h]

theorem mem_keys_setKV_self {β : Type} (m : List (JStr × β)) (k : JStr) (v : β) :
    k ∈ (setKV m k v).map Prod.fst := by
  rw [map_fst_setKV]
  by_cases hm : k ∈ m.map Prod.fst <;> simp [hm]

theorem mem_keys_setKV_mono {β : Type} {m : List (JStr × β)} {q : JStr}
    (h : q ∈ m.map Prod.fst) (k : JStr) (v : β) :
    q ∈ (setKV m k v).map Prod.fst := by
  rw [map_fst_setKV]
  by_cases hm : k ∈ m.map Prod.fst <;> simp [hm, h]

theorem keys_setKV_subset {β : Type} {m : List (JStr × β)} {q k : JStr} {v : β}
    (h : q ∈ (setKV m k v).map Prod.fst) : q = k ∨ q ∈ m.map Prod.fst := by
  rw [map_fst_setKV] at h
  by_cases hm : k ∈ m.map Prod.fst
  · rw [if_pos hm] at h
    exact Or.inr h
  · rw [if_neg hm, List.mem_append] at h
    rcases h with h | h
    · exact Or.inr h
    · simp at h
      exact Or.inl h

theorem countKey_eq_zero_of_not_mem {β : Type} {m : List (JStr × β)} {k : JStr}
    (h : k ∉ m.map Prod.fst) : countKey m k = 0 := by
  induction m with
  | nil => rfl
  | cons kv rest ih =>
    obtain ⟨k', v'⟩ := kv
    simp only [List.map_cons, List.mem_cons] at h
    push_neg at h
    rw [countKey, if_neg (fun hh => h.1 hh.symm), ih h.2]

theorem countKey_eq_one_of_nodup {β : Type} {m : List (JStr × β)} {k : JStr}
    (hn : (m.map Prod.fst).Nodup) (hk : k ∈ m.map Prod.fst) : countKey m k = 1 := by
  induction m with
  | nil => simp at hk
  | cons kv rest ih =>
    obtain ⟨k', v'⟩ := kv
    simp only [List.map_cons, List.nodup_cons] at hn
    simp only [List.map_cons, List.mem_cons] at hk
    by_cases h : k' = k
    · subst h
      rw [countKey, if_pos rfl, countKey_eq_zero_of_not_mem hn.1]
    · rcases hk with hk | hk
      · exact absurd hk.symm h
      · rw [countKey, if_neg h, ih hn.2 hk]

theorem foldl_setKV_nodup (sha : JStr) (pkgs : List PackageJson) :
    ∀ m : VMap, (m.map Prod.fst).Nodup →
      ((pkgs.foldl (fun acc pj => setKV acc pj.name (planValue sha pj)) m).map
        Prod.fst).Nodup := by
  induction pkgs with
  | nil => exact fun m h => h
  | cons p rest ih =>
    intro m h
    exact ih _ (nodup_keys_setKV h _ _)

theorem foldl_setKV_mem_keys (sha : JStr) (pkgs : List PackageJson) :
    ∀ (m : VMap) (q : JStr), q ∈ m.map Prod.fst →
      q ∈ (pkgs.foldl (fun acc pj => setKV acc pj.name (planValue sha pj)) m).map
        Prod.fst := by
  induction pkgs with
  | nil => exact fun m q h => h
  | cons p rest ih =>
    intro m q h
    exact ih _ q (mem_keys_setKV_mono h _ _)

theorem foldl_setKV_mem_of_pkg (sha : JStr) (pkgs : List PackageJson)
    (p : PackageJson) (hp : p ∈ pkgs) :
    ∀ m : VMap,
      p.name ∈ (pkgs.foldl (fun acc pj => setKV acc pj.name (planValue sha pj)) m).map
        Prod.fst := by
  induction pkgs with
  | nil => cases hp
  | cons q rest ih =>
    intro m
    rcases List.mem_cons.mp hp with h | h
    · subst h
      exact foldl_setKV_mem_keys sha rest _ _ (mem_keys_setKV_self m p.name _)
    · exact ih h _

theorem foldl_setKV_keys_subset (sha : JStr) (pkgs : List PackageJson) :
    ∀ (m : VMap) (q : JStr),
      q ∈ (pkgs.foldl (fun acc pj => setKV acc pj.name (planValue sha pj)) m).map
        Prod.fst →
      q ∈ m.map Prod.fst ∨ ∃ p ∈ pkgs, p.name = q := by
  induction pkgs with
  | nil => exact fun m q h => Or.inl h
  | cons p rest ih =>
    intro m q h
    rcases ih _ q h with h' | h'
    · rcases keys_setKV_subset h' with h'' | h''
      · exact Or.inr ⟨p, List.mem_cons_self p rest, h''.symm⟩
      · exact Or.inl h''
    · obtain ⟨p', hp', hn⟩ := h'
      exact Or.inr ⟨p', List.mem_cons_of_mem p hp', hn⟩

theorem foldl_setKV_lookup_of_not_mem (sha : JStr) (l2 : List PackageJson) :
    ∀ (m : VMap) (k : JStr), (∀ p ∈ l2, p.name ≠ k) →
      lookupKV (l2.foldl (fun acc pj => setKV acc pj.name (planValue sha pj)) m) k =
        lookupKV m k := by
  induction l2 with
  | nil => exact fun m k _ => rfl
  | cons q rest ih =>
    intro m k h
    rw [List.foldl_cons, ih _ k (fun p hp => h p (List.mem_cons_of_mem q hp)),
      lookupKV_setKV_ne]
    exact fun hk => h q (List.mem_cons_self q rest) hk.symm

theorem lookup_planVersions (pkgs : List PackageJson) (sha : JStr)
    (hnodup : (pkgs.map PackageJson.name).Nodup)
    (p : PackageJson) (hp : p ∈ pkgs) :
    lookupKV (planVersions pkgs sha) p.name = some (planValue sha p) := by
  obtain ⟨l1, l2, rfl⟩ := List.append_of_mem hp
  have hnotin : p.name ∉ l2.map PackageJson.name := by
    rw [List.map_append, List.map_cons] at hnodup
    exact (List.nodup_cons.mp (List.Nodup.of_append_right hnodup)).1
  unfold planVersions
  rw [List.foldl_append, List.foldl_cons,
    foldl_setKV_lookup_of_not_mem sha l2 _ p.name
      (fun q hq hqe => hnotin (hqe ▸ List.mem_map_of_mem PackageJson.name hq)),
    lookupKV_setKV_self]

/-! Helper lemmas: decimal printing round-trips through parsing. -/

theorem digitChar_isDigit {d : Nat} (h : d < 10) : (digitChar d).isDigit = true := by
  interval_cases d <;> rfl

theorem charVal_digitChar {d : Nat} (h : d < 10) : charVal (digitChar d) = d := by
  interval_cases d <;> rfl

theorem digitChar_ne_zero {d : Nat} (h : d < 10) (h0 : d ≠ 0) : digitChar d ≠ '0' := by
  interval_cases d <;> simp_all <;> decide

theorem strToNat_append_digit (l : JStr) (c : Char) :
    strToNat (l ++ [c]) = strToNat l * 10 + charVal c := by
  unfold strToNat
  rw [List.foldl_append]
  rfl

theorem natToStrAux_spec :
    ∀ (fuel n : Nat), n < fuel →
      natToStrAux fuel n ≠ [] ∧
        (∀ c ∈ natToStrAux fuel n, c.isDigit = true) ∧
        strToNat (natToStrAux fuel n) = n ∧
        (n ≠ 0 → ¬ (natToStrAux fuel n).head? = some '0') := by
  intro fuel
  induction fuel with
  | zero => intro n h; omega
  | succ fuel ih =>
    intro n h
    by_cases h10 : n < 10
    · have e : natToStrAux (fuel + 1) n = [digitChar n] := by
        unfold natToStrAux
        rw [if_pos h10]
      rw [e]
      refine ⟨by simp, ?_, ?_, ?_⟩
      · intro c hc
        rw [List.mem_singleton] at hc
        subst hc
        exact digitChar_isDigit h10
      · show strToNat ([] ++ [digitChar n]) = n
        rw [strToNat_append_digit]
        show strToNat [] * 10 + charVal (digitChar n) = n
        rw [charVal_digitChar h10]
        simp [strToNat]
      · intro h0 hc
        rw [List.head?_cons, Option.some_inj] at hc
        exact digitChar_ne_zero h10 h0 hc
    · have e : natToStrAux (fuel + 1) n
          = natToStrAux fuel (n / 10) ++ [digitChar (n % 10)] := by
        rw [show natToStrAux (fuel + 1) n
            = if n < 10 then [digitChar n]
              else natToStrAux fuel (n / 10) ++ [digitChar (n % 10)] from rfl,
          if_neg h10]
      have hlt : n / 10 < fuel := by omega
      obtain ⟨hne, hdig, hval, hhead⟩ := ih (n / 10) hlt
      rw [e]
      refine ⟨by simp, ?_, ?_, ?_⟩
      · intro c hc
        rw [List.mem_append] at hc
        rcases hc with hc | hc
        · exact hdig c hc
        · rw [List.mem_singleton] at hc
          subst hc
          exact digitChar_isDigit (by omega)
      · rw [strToNat_append_digit, hval, charVal_digitChar (by omega)]
        omega
      · intro _ hc
        cases haux : natToStrAux fuel (n / 10) with
        | nil => exact hne haux
        | cons c0 cs =>
          rw [haux, List.cons_append, List.head?_cons, Option.some_inj] at hc
          have := hhead (by omega)
          rw [haux, List.head?_cons] at this
          exact this (by rw [hc])

theorem noLeadZero_natToStr (n : Nat) : noLeadZero (natToStr n) = true := by
  obtain ⟨hne, _, _, hhead⟩ := natToStrAux_spec (n + 1) n (by omega)
  by_cases h0 : n = 0
  · subst h0
    rfl
  · cases haux : natToStrAux (n + 1) n with
    | nil => exact absurd haux hne
    | cons c0 cs =>
      have hc0 : c0 ≠ '0' := by
        have := hhead h0
        rw [haux, List.head?_cons] at this
        intro hc
        exact this (by rw [hc])
      unfold natToStr
      rw [haux]
      cases cs with
      | nil => rfl
      | cons c1 cs' => simp [noLeadZero, hc0]

theorem parseNumId_natToStr (n : Nat) : parseNumId (natToStr n) = some n := by
  obtain ⟨hne, hdig, hval, _⟩ := natToStrAux_spec (n + 1) n (by omega)
  unfold parseNumId
  rw [if_pos]
  · unfold natToStr
    rw [hval]
  · simp only [Bool.and_eq_true]
    refine ⟨⟨?_, ?_⟩, noLeadZero_natToStr n⟩
    · unfold natToStr
      cases haux : natToStrAux (n + 1) n with
      | nil => exact absurd haux hne
      | cons c0 cs => rfl
    · rw [List.all_eq_true]
      exact fun c hc => hdig c hc

/-! Helper lemmas: splitting. -/

theorem splitFirst_of_not_mem {c : Char} :
    ∀ {s : JStr}, c ∉ s → splitFirst c s = (s, none) := by
  intro s
  induction s with
  | nil => intro _; rfl
  | cons x xs ih =>
    intro h
    rw [List.mem_cons] at h
    push_neg at h
    simp only [splitFirst]
    rw [if_neg (fun hx => h.1 hx.symm), ih h.2]

theorem splitFirst_none_elim {c : Char} :
    ∀ {s x : JStr}, splitFirst c s = (x, none) → x = s ∧ c ∉ s := by
  intro s
  induction s with
  | nil =>
    intro x h
    rw [splitFirst] at h
    injection h with h1 _
    exact ⟨h1.symm, by simp⟩
  | cons a as ih =>
    intro x h
    by_cases ha : a = c
    · rw [splitFirst, if_pos ha] at h
      injection h with _ h2
      simp at h2
    · cases hsp : splitFirst c as with
      | mk y o =>
        rw [splitFirst, if_neg ha, hsp] at h
        injection h with h1 h2
        have ho : o = none := h2
        have h1' : a :: y = x := h1
        obtain ⟨h3, h4⟩ := ih (show splitFirst c as = (y, none) by rw [hsp, ho])
        refine ⟨?_, ?_⟩
        · rw [← h1', h3]
        · rw [List.mem_cons]
          rintro (hc | hc)
          · exact ha hc.symm
          · exact h4 hc

theorem splitFirst_append {c : Char} :
    ∀ {l : JStr}, c ∉ l → ∀ r, splitFirst c (l ++ c :: r) = (l, some r) := by
  intro l
  induction l with
  | nil =>
    intro _ r
    rw [List.nil_append, splitFirst, if_pos rfl]
  | cons x xs ih =>
    intro h r
    rw [List.mem_cons] at h
    push_neg at h
    rw [List.cons_append]
    simp only [splitFirst]
    rw [if_neg (fun hx => h.1 hx.symm), ih h.2 r]

theorem splitSep_ne_nil {sep : Char} : ∀ {l : JStr}, splitSep sep l ≠ [] := by
  intro l
  induction l with
  | nil => simp [splitSep]
  | cons x xs ih =>
    cases hr : splitSep sep xs with
    | nil => exact absurd hr ih
    | cons y ys =>
      rw [splitSep, hr]
      show (if x = sep then [] :: y :: ys else (x :: y) :: ys) ≠ []
      by_cases h : x = sep <;> simp [h]

theorem splitSep_of_not_mem {sep : Char} :
    ∀ {l : JStr}, sep ∉ l → splitSep sep l = [l] := by
  intro l
  induction l with
  | nil => intro _; rfl
  | cons x xs ih =>
    intro h
    rw [List.mem_cons] at h
    push_neg at h
    rw [splitSep, ih h.2]
    show (if x = sep then [] :: xs :: [] else (x :: xs) :: []) = [x :: xs]
    rw [if_neg (fun hx => h.1 hx.symm)]

theorem splitSep_append {sep : Char} :
    ∀ {l : JStr}, sep ∉ l → ∀ r, splitSep sep (l ++ sep :: r) = l :: splitSep sep r := by
  intro l
  induction l with
  | nil =>
    intro _ r
    rw [List.nil_append, splitSep]
    cases hr : splitSep sep r with
    | nil => exact absurd hr splitSep_ne_nil
    | cons y ys =>
      show (if sep = sep then [] :: y :: ys else (sep :: y) :: ys) = [] :: y :: ys
      rw [if_pos rfl]
  | cons x xs ih =>
    intro h r
    rw [List.mem_cons] at h
    push_neg at h
    rw [List.cons_append, splitSep, ih h.2 r]
    show (if x = sep then [] :: xs :: splitSep sep r else (x :: xs) :: splitSep sep r)
        = (x :: xs) :: splitSep sep r
    rw [if_neg (fun hx => h.1 hx.symm)]

/-! Helper lemmas: semver parsing. -/

theorem parsePre_ne_nil {s : JStr} {ids : List JStr} (h : parsePre s = some ids) :
    ids ≠ [] := by
  simp only [parsePre] at h
  split at h
  next =>
    injection h with h1
    rw [← h1]
    exact splitSep_ne_nil
  next => cases h

theorem parseBuild_ne_nil {s : JStr} {ids : List JStr} (h : parseBuild s = some ids) :
    ids ≠ [] := by
  simp only [parseBuild] at h
  split at h
  next =>
    injection h with h1
    rw [← h1]
    exact splitSep_ne_nil
  next => cases h

theorem vStrip_append {v : JStr} (hne : v ≠ []) (X : JStr) :
    vStrip (v ++ X) = vStrip v ++ X := by
  cases v with
  | nil => exact absurd rfl hne
  | cons a t =>
    by_cases ha : a = 'v'
    · subst ha
      simp [vStrip]
    · simp [vStrip, ha]

theorem parseSemver_shape {s : JStr} {sv : SemVer}
    (h : parseSemver s = some sv) (hpre : sv.pre = []) (hbuild : sv.build = []) :
    '+' ∉ vStrip s ∧ '-' ∉ vStrip s ∧
      parseCore (vStrip s) = some (sv.major, sv.minor, sv.patch) := by
  simp only [parseSemver] at h
  cases hbp : splitFirst '+' (vStrip s) with
  | mk b1 b2 =>
    rw [hbp] at h
    dsimp only at h
    cases hcp : splitFirst '-' b1 with
    | mk c1 c2 =>
      rw [hcp] at h
      dsimp only at h
      cases hpc : parseCore c1 with
      | none =>
        rw [hpc] at h
        cases h
      | some triple =>
        obtain ⟨a, b, c⟩ := triple
        rw [hpc] at h
        dsimp only at h
        cases hc2 : c2 with
        | some ps =>
          rw [hc2] at h
          dsimp only at h
          cases hpp : parsePre ps with
          | none =>
            rw [hpp] at h
            cases h
          | some pids =>
            rw [hpp] at h
            dsimp only at h
            have hne := parsePre_ne_nil hpp
            cases hb2 : b2 with
            | none =>
              rw [hb2] at h
              injection h with h1
              rw [← h1] at hpre
              exact absurd hpre hne
            | some bs =>
              rw [hb2] at h
              dsimp only at h
              cases hpb : parseBuild bs with
              | none =>
                rw [hpb] at h
                cases h
              | some bids =>
                rw [hpb] at h
                injection h with h1
                rw [← h1] at hpre
                exact absurd hpre hne
        | none =>
          rw [hc2] at h
          dsimp only at h
          cases hb2 : b2 with
          | some bs =>
            rw [hb2] at h
            dsimp only at h
            cases hpb : parseBuild bs with
            | none =>
              rw [hpb] at h
              cases h
            | some bids =>
              rw [hpb] at h
              injection h with h1
              rw [← h1] at hbuild
              exact absurd hbuild (parseBuild_ne_nil hpb)
          | none =>
            rw [hb2] at h
            injection h with h1
            obtain ⟨hb1, hplus⟩ := splitFirst_none_elim (by rw [hbp, hb2])
            obtain ⟨hc1, hminus⟩ := splitFirst_none_elim (by rw [hcp, hc2])
            subst hb1
            subst hc1
            rw [← h1]
            exact ⟨hplus, hminus, hpc⟩

theorem parseSemver_planned {v sha : JStr} {sv : SemVer}
    (hv : parseSemver v = some sv) (hpre : sv.pre = []) (hbuild : sv.build = [])
    (hsha_ne : sha ≠ []) (hsha : ∀ c ∈ sha, c.isAlphanum = true)
    (hnl : sha.all Char.isDigit = true → noLeadZero sha = true) :
    parseSemver (v ++ expLit ++ '.' :: sha)
      = some ⟨sv.major, sv.minor, sv.patch, [jstr "exp", sha], []⟩ := by
  obtain ⟨hplus, hminus, hcore⟩ := parseSemver_shape hv hpre hbuild
  have hvne : v ≠ [] := by
    intro h0
    rw [h0] at hcore
    have hnone : parseCore (vStrip ([] : JStr)) = none := by decide
    rw [hnone] at hcore
    cases hcore
  have hpsha : ∀ ch : Char, ch.isAlphanum = false → ch ∉ sha := by
    intro ch hch hc
    rw [hsha ch hc] at hch
    cases hch
  have hplus_sha : '+' ∉ sha := hpsha '+' (by decide)
  have hdot_sha : '.' ∉ sha := hpsha '.' (by decide)
  have hXplus : '+' ∉ expLit ++ '.' :: sha := by
    intro hc
    rw [List.mem_append] at hc
    rcases hc with hc | hc
    · exact absurd hc (by decide)
    · rw [List.mem_cons] at hc
      rcases hc with hc | hc
      · exact absurd hc (by decide)
      · exact hplus_sha hc
  have hpp : parsePre (jstr "exp" ++ '.' :: sha) = some [jstr "exp", sha] := by
    simp only [parsePre]
    rw [splitSep_append (by decide), splitSep_of_not_mem hdot_sha]
    rw [if_pos ?hall]
    case hall =>
      rw [List.all_eq_true]
      intro x hx
      rcases List.mem_cons.mp hx with hx | hx
      · subst hx
        decide
      · rw [List.mem_singleton] at hx
        rw [hx]
        simp only [preIdOk, Bool.and_eq_true]
        refine ⟨⟨?_, ?_⟩, ?_⟩
        · cases sha with
          | nil => exact absurd rfl hsha_ne
          | cons _ _ => rfl
        · rw [List.all_eq_true]
          intro ch hch
          simp only [idChar, Bool.or_eq_true]
          exact Or.inl (hsha ch hch)
        · by_cases hd : sha.all Char.isDigit = true
          · rw [hnl hd]
            simp
          · have hf : sha.all Char.isDigit = false := by
              revert hd
              cases sha.all Char.isDigit <;> simp
            rw [hf]
            rfl
  have hp4 : '+' ∉ vStrip v ++ (expLit ++ '.' :: sha) := by
    intro hc
    rw [List.mem_append] at hc
    rcases hc with hc | hc
    · exact hplus hc
    · exact hXplus hc
  simp only [parseSemver]
  rw [List.append_assoc]
  rw [vStrip_append hvne]
  rw [splitFirst_of_not_mem hp4]
  dsimp only
  rw [show expLit ++ '.' :: sha = '-' :: (jstr "exp" ++ '.' :: sha) from rfl,
    splitFirst_append hminus (jstr "exp" ++ '.' :: sha)]
  dsimp only
  rw [hcore]
  dsimp only
  rw [hpp]

theorem natToStr_ne_nil (n : Nat) : natToStr n ≠ [] :=
  (natToStrAux_spec (n + 1) n (by omega)).1

theorem natToStr_all_digit (n : Nat) : ∀ c ∈ natToStr n, c.isDigit = true :=
  (natToStrAux_spec (n + 1) n (by omega)).2.1

theorem not_mem_natToStr_of_not_digit {ch : Char} (h : ch.isDigit = false) (n : Nat) :
    ch ∉ natToStr n := by
  intro hc
  rw [natToStr_all_digit n ch hc] at h
  cases h

theorem renderCore_chars {a b c : Nat} {ch : Char} (hch : ch ∈ renderCore a b c) :
    ch.isDigit = true ∨ ch = '.' := by
  unfold renderCore at hch
  rw [List.mem_append] at hch
  rcases hch with hch | hch
  · exact Or.inl (natToStr_all_digit a ch hch)
  · rw [List.mem_cons] at hch
    rcases hch with hch | hch
    · exact Or.inr hch
    · rw [List.mem_append] at hch
      rcases hch with hch | hch
      · exact Or.inl (natToStr_all_digit b ch hch)
      · rw [List.mem_cons] at hch
        rcases hch with hch | hch
        · exact Or.inr hch
        · exact Or.inl (natToStr_all_digit c ch hch)

theorem vStrip_renderCore (a b c : Nat) : vStrip (renderCore a b c) = renderCore a b c := by
  cases hn : natToStr a with
  | nil => exact absurd hn (natToStr_ne_nil a)
  | cons c0 cs =>
    have hd : c0.isDigit = true :=
      natToStr_all_digit a c0 (by rw [hn]; exact List.mem_cons_self _ _)
    have hh : (renderCore a b c).head? = some c0 := by
      unfold renderCore
      rw [hn]
      rfl
    unfold vStrip
    rw [hh, if_neg ?hv]
    case hv =>
      intro hcon
      injection hcon with hcon
      rw [hcon] at hd
      exact absurd hd (by decide)

theorem parseCore_renderCore (a b c : Nat) :
    parseCore (renderCore a b c) = some (a, b, c) := by
  unfold parseCore renderCore
  rw [splitSep_append (not_mem_natToStr_of_not_digit (by decide) a) _,
    splitSep_append (not_mem_natToStr_of_not_digit (by decide) b) _,
    splitSep_of_not_mem (not_mem_natToStr_of_not_digit (by decide) c)]
  dsimp only
  rw [parseNumId_natToStr, parseNumId_natToStr, parseNumId_natToStr]

theorem parseSemver_renderCore (a b c : Nat) :
    parseSemver (renderCore a b c) = some ⟨a, b, c, [], []⟩ := by
  have hplus : '+' ∉ renderCore a b c := by
    intro hc
    rcases renderCore_chars hc with h | h
    · exact absurd h (by decide)
    · exact absurd h (by decide)
  have hminus : '-' ∉ renderCore a b c := by
    intro hc
    rcases renderCore_chars hc with h | h
    · exact absurd h (by decide)
    · exact absurd h (by decide)
  simp only [parseSemver]
  rw [vStrip_renderCore]
  rw [splitFirst_of_not_mem hplus]
  dsimp only
  rw [splitFirst_of_not_mem hminus]
  dsimp only
  rw [parseCore_renderCore]

theorem inc_of_parse {v : JStr} {sv : SemVer} (h : parseSemver v = some sv)
    (hpre : sv.pre = []) :
    inc v = some (renderCore sv.major sv.minor (sv.patch + 1)) := by
  unfold inc
  rw [h]
  simp [hpre]

theorem cmpNat_self (n : Nat) : cmpNat n n = Ordering.eq := by
  simp [cmpNat]

theorem cmpSemver_lt_of_pre {a b c : Nat} {pre bd bd' : List JStr} (h : pre ≠ []) :
    cmpSemver ⟨a, b, c, pre, bd⟩ ⟨a, b, c, [], bd'⟩ = Ordering.lt := by
  cases pre with
  | nil => exact absurd rfl h
  | cons p ps => simp [cmpSemver, cmpNat_self]

/-- C5: over a working set whose current versions all parse (and whose
names are unique, per the data-model invariant), the version plan holds
exactly one entry for every package name and nothing else, and the
umbrella entry is the current stable version with the patch component
incremented by exactly one. -/
theorem c5_version_plan (pkgs : List PackageJson) (sha : JStr)
    (_hparse : ∀ p ∈ pkgs,
      (match p.version with
       | some (some s) => (parseSemver s).isSome
       | _ => false) = true)
    (hnodup : (pkgs.map PackageJson.name).Nodup)
    (um : PackageJson) (hum : um ∈ pkgs)
    (humname : um.name = FIREBASE_UMBRELLA_PACKAGE_NAME)
    (v : JStr) (humv : um.version = some (some v))
    (sv : SemVer) (hsv : parseSemver v = some sv) (hstable : sv.pre = []) :
    (∀ p ∈ pkgs, countKey (planVersions pkgs sha) p.name = 1) ∧
      (∀ kv ∈ planVersions pkgs sha, ∃ p ∈ pkgs, p.name = kv.1) ∧
      (∃ w, lookupKV (planVersions pkgs sha) FIREBASE_UMBRELLA_PACKAGE_NAME
          = some (some w) ∧
        parseSemver w = some ⟨sv.major, sv.minor, sv.patch + 1, [], []⟩) := by
  refine ⟨?_, ?_, ?_⟩
  · intro p hp
    exact countKey_eq_one_of_nodup
      (foldl_setKV_nodup sha pkgs [] (by simp))
      (foldl_setKV_mem_of_pkg sha pkgs p hp [])
  · intro kv hkv
    have hk : kv.1 ∈ (planVersions pkgs sha).map Prod.fst :=
      List.mem_map_of_mem Prod.fst hkv
    rcases foldl_setKV_keys_subset sha pkgs [] kv.1 hk with h | h
    · simp at h
    · exact h
  · rw [← humname, lookup_planVersions pkgs sha hnodup um hum]
    unfold planValue
    rw [if_pos humname, humv]
    dsimp only
    rw [inc_of_parse hsv hstable]
    exact ⟨renderCore sv.major sv.minor (sv.patch + 1), rfl, parseSemver_renderCore _ _ _⟩

/-- Witness for C5 at the scenario working set: the umbrella entry is
`1.2.4`, i.e. `1.2.3` with patch incremented. -/
theorem c5_version_plan_witness :
    (∀ p ∈ [scUm, scB], countKey (planVersions [scUm, scB] (jstr "abcdef")) p.name = 1) ∧
      (∀ kv ∈ planVersions [scUm, scB] (jstr "abcdef"), ∃ p ∈ [scUm, scB], p.name = kv.1) ∧
      (∃ w, lookupKV (planVersions [scUm, scB] (jstr "abcdef"))
          FIREBASE_UMBRELLA_PACKAGE_NAME = some (some w) ∧
        parseSemver w = some ⟨1, 2, 4, [], []⟩) :=
  c5_version_plan [scUm, scB] (jstr "abcdef") (by decide) (by decide) scUm
    (List.mem_cons_self _ _) rfl (jstr "1.2.3") rfl ⟨1, 2, 3, [], []⟩ (by decide) rfl

/-- C3 fails on the code: the planned version of the scenario package
`@x/a-exp` (current version `0.5.0`) is `0.5.0-exp.abcdef`, which is
strictly LOWER than `0.5.0` under semver precedence — a prerelease of a
release precedes the release — contradicting the claim that the planned
version is never older than the current one. -/
theorem c3_counterexample :
    lookupKV (planVersions [scUm, scA, scB] (jstr "abcdef")) (jstr "@x/a-exp")
        = some (some (jstr "0.5.0-exp.abcdef")) ∧
      parseSemver (jstr "0.5.0-exp.abcdef")
        = some ⟨0, 5, 0, [jstr "exp", jstr "abcdef"], []⟩ ∧
      parseSemver (jstr "0.5.0") = some ⟨0, 5, 0, [], []⟩ ∧
      cmpSemver ⟨0, 5, 0, [jstr "exp", jstr "abcdef"], []⟩ ⟨0, 5, 0, [], []⟩
        = Ordering.lt := by
  decide

/-- C3 amended: for every non-umbrella package of the working set whose
current version is a plain release (no prerelease, no build metadata),
and a build id that is a valid alphanumeric prerelease identifier, the
planned version `<version>-exp.<sha>` parses as a prerelease of the same
release core: it is never equal to the current version under semver
precedence, being strictly LOWER than it. -/
theorem c3_planned_version_ordering (pkgs : List PackageJson) (sha : JStr)
    (hnodup : (pkgs.map PackageJson.name).Nodup)
    (p : PackageJson) (hp : p ∈ pkgs)
    (hname : p.name ≠ FIREBASE_UMBRELLA_PACKAGE_NAME)
    (v : JStr) (hv : p.version = some (some v))
    (sv : SemVer) (hsv : parseSemver v = some sv)
    (hpre : sv.pre = []) (hbuild : sv.build = [])
    (hsha_ne : sha ≠ []) (hsha : ∀ c ∈ sha, c.isAlphanum = true)
    (hnl : sha.all Char.isDigit = true → noLeadZero sha = true) :
    ∃ w sv2, lookupKV (planVersions pkgs sha) p.name = some (some w) ∧
      parseSemver w = some sv2 ∧ cmpSemver sv2 sv = Ordering.lt := by
  obtain ⟨ma, mi, pa, pr, bu⟩ := sv
  dsimp only at hpre hbuild
  subst hpre
  subst hbuild
  rw [lookup_planVersions pkgs sha hnodup p hp]
  unfold planValue
  rw [if_neg hname, hv]
  dsimp only [jsTemplate]
  exact ⟨v ++ expLit ++ '.' :: sha, ⟨ma, mi, pa, [jstr "exp", sha], []⟩, rfl,
    parseSemver_planned hsv rfl rfl hsha_ne hsha hnl,
    cmpSemver_lt_of_pre (by simp)⟩

/-- Witness for C3 at the scenario package `@x/a-exp`. -/
theorem c3_planned_version_ordering_witness :
    ∃ w sv2,
      lookupKV (planVersions [scUm, scA] (jstr "abcdef")) (jstr "@x/a-exp")
          = some (some w) ∧
        parseSemver w = some sv2 ∧
        cmpSemver sv2 ⟨0, 5, 0, [], []⟩ = Ordering.lt :=
  c3_planned_version_ordering [scUm, scA] (jstr "abcdef") (by decide) scA
    (by simp) (by decide) (jstr "0.5.0") rfl ⟨0, 5, 0, [], []⟩ (by decide) rfl rfl
    (by decide) (by decide) (by decide)
